import Mathlib

/-!
Verification development for the FHIR Security Labeling Service core engine
(`backend/fhir-sls-service.js`, with the client-side reference copy in the
repository's unnamed sources).  The JavaScript is shallowly embedded: JSON
values become the mutual inductive `JVal`/`JFields`/`JElems`; the SQLite
`rules` table (PRIMARY KEY `code_key`, written with INSERT OR REPLACE) becomes
an association list with key-replacing insertion; dates/timestamps become
integers ordered as the JS `Date` comparisons order them; thrown JS errors
become `Except.error`.  Functions keep their source names.
-/

/-! ## JSON value model

A JavaScript/JSON tree.  Objects are ordered key/value lists (JS `for..in`
insertion order), arrays are ordered element lists.  The three types are a
mutual inductive family so that the recursive traversals of the source can be
defined by structural recursion and evaluated by `decide`. -/

mutual
inductive JVal where
  | str (s : String)
  | num (n : Int)
  | boolean (b : Bool)
  | null
  | obj (fields : JFields)
  | arr (elems : JElems)
  deriving DecidableEq
inductive JFields where
  | nil
  | cons (key : String) (val : JVal) (rest : JFields)
  deriving DecidableEq
inductive JElems where
  | nil
  | cons (v : JVal) (rest : JElems)
  deriving DecidableEq
end

/-- Property access `obj[key]`: the value of the first field named `key`. -/
def JFields.get : JFields → String → Option JVal
  | .nil, _ => none
  | .cons k v rest, key => if k == key then some v else rest.get key

/-- JavaScript truthiness of a value ("" , 0, false, null are falsy; every
object and array is truthy). -/
def JVal.truthy : JVal → Bool
  | .str s => s ≠ ""
  | .num n => n ≠ 0
  | .boolean b => b
  | .null => false
  | .obj _ => true
  | .arr _ => true

mutual
/-- JavaScript template-literal string conversion, as used by the source in
`` `${obj.system}|${obj.code}` ``.  Arrays join their elements with commas,
objects print as "[object Object]". -/
def JVal.jstr : JVal → String
  | .str s => s
  | .num n => toString n
  | .boolean b => if b then "true" else "false"
  | .null => "null"
  | .obj _ => "[object Object]"
  | .arr es => JElems.jstrJoin es
def JElems.jstrJoin : JElems → String
  | .nil => ""
  | .cons v .nil => JVal.jstr v
  | .cons v rest => JVal.jstr v ++ "," ++ JElems.jstrJoin rest
end

/-! ## Rule table model -/

/-- The topic value stored per rule row / in the JS `rules` object built by
`getAllRules`: `{ code: topic_code, system: topic_system, display: topic_display }`. -/
structure Topic where
  code : String
  system : String
  display : String
  deriving DecidableEq

/-- The compiled `rules` SQLite table: rows `(code_key, topic)` with
`code_key` the PRIMARY KEY, so keys are unique. -/
abbrev Rules := List (String × Topic)

/-- Lookup `rules[key]` in the rules object loaded by `getAllRules`. -/
def lookupRule (rules : Rules) (key : String) : Option Topic :=
  match rules with
  | [] => none
  | (k, t) :: rest => if k == key then some t else lookupRule rest key

/-- `INSERT OR REPLACE INTO rules (code_key, ...)`: SQLite REPLACE deletes any
row with the same primary key and inserts the new row. -/
def insertOrReplace (tbl : Rules) (key : String) (topic : Topic) : Rules :=
  tbl.filter (fun row => row.1 ≠ key) ++ [(key, topic)]

/-- `matchedTopics.add(JSON.stringify(rules[key]))`: a JS `Set` keeps insertion
order and ignores re-insertion of an element already present (the stringified
topic object is a canonical representation, so string equality is `Topic`
equality). -/
def addMatched (acc : List Topic) (t : Topic) : List Topic :=
  if t ∈ acc then acc else acc ++ [t]

/-! ## RuleCompiler: ValueSet model, `extractTopicCodings`, `buildRules`,
`extractCodesFromExpansion` -/

mutual
/-- One item of `ValueSet.expansion.contains`: optional `system` and `code`
fields plus a (possibly empty) nested `contains` list.  Mutual inductive for
the same structural-recursion reason as `JVal`. -/
inductive CItem where
  | mk (system : Option String) (code : Option String) (contains : CList)
  deriving DecidableEq
inductive CList where
  | nil
  | cons (item : CItem) (rest : CList)
  deriving DecidableEq
end

mutual
/-- `extractCodesFromExpansion(contains, insertStmt, topic)`: walk the
expansion tree; for every item with truthy `code` and `system`, run
`insertStmt` on key `` `${item.system}|${item.code}` ``, then recurse into
`item.contains`. -/
def extractCodesFromExpansion (contains : CList) (tbl : Rules) (topic : Topic) : Rules :=
  match contains with
  | .nil => tbl
  | .cons item rest => extractCodesFromExpansion rest (extractCodesItem item tbl topic) topic
/-- One loop iteration of `extractCodesFromExpansion`: the insert for the item
itself, then the recursion into its nested `contains`. -/
def extractCodesItem (item : CItem) (tbl : Rules) (topic : Topic) : Rules :=
  match item with
  | .mk system code kids =>
    let tbl1 :=
      match code, system with
      | some c, some s =>
        if c ≠ "" && s ≠ "" then insertOrReplace tbl (s ++ "|" ++ c) topic else tbl
      | _, _ => tbl
    extractCodesFromExpansion kids tbl1 topic
end

/-- A FHIR `Coding` as read by `extractTopicCodings` (`system`, `code`,
`display`, each possibly absent). -/
structure Coding where
  system : Option String
  code : Option String
  display : Option String
  deriving DecidableEq

/-- One element of `ValueSet.useContext`: `ctx.code.code` and the codings of
`ctx.valueCodeableConcept` (empty list when absent). -/
structure UseContext where
  codeCode : Option String
  valueCodings : List Coding
  deriving DecidableEq

/-- The parts of a `ValueSet` resource that `buildRules` reads: `topic[i].coding`
lists, `useContext`, and `expansion.contains`. -/
structure ValueSet where
  id : Option String
  topic : List (List Coding)
  useContext : List UseContext
  expansionContains : CList
  deriving DecidableEq

/-- `extractTopicCodings(resource)`: `topic[0].coding[0]` when it exists and
has a truthy `code`, then every coding with a truthy `code` from every
`useContext` entry whose `code.code === 'focus'`. -/
def extractTopicCodings (resource : ValueSet) : List Coding :=
  let fromTopic :=
    match resource.topic with
    | [] => []
    | codings :: _ =>
      match codings with
      | [] => []
      | coding :: _ =>
        match coding.code with
        | some c => if c ≠ "" then [coding] else []
        | none => []
  resource.useContext.foldl
    (fun acc ctx =>
      if ctx.codeCode == some "focus" then
        acc ++ ctx.valueCodings.filter
          (fun coding =>
            match coding.code with
            | some c => c ≠ ""
            | none => false)
      else acc)
    fromTopic

/-- The topic row fields computed per topic coding in `buildRules`:
`topicCode`, `topicSystem`, `topicDisplay = topicCoding.display || topicCode`
(an absent DB field is modelled as the empty string). -/
def topicOfCoding (coding : Coding) : Topic :=
  let topicCode := coding.code.getD ""
  let topicDisplay :=
    match coding.display with
    | some d => if d ≠ "" then d else topicCode
    | none => topicCode
  ⟨topicCode, coding.system.getD "", topicDisplay⟩

/-- `buildRules` body for one ValueSet: for each resolved topic coding, insert
every code of the expansion with that topic. -/
def buildRulesForValueSet (vs : ValueSet) (tbl : Rules) : Rules :=
  (extractTopicCodings vs).foldl
    (fun t coding => extractCodesFromExpansion vs.expansionContains t (topicOfCoding coding))
    tbl

/-- `buildRules(valueSets)`: fold `buildRulesForValueSet` over the processed
ValueSets, mutating the persistent rules table. -/
def buildRules (valueSets : List ValueSet) (tbl : Rules) : Rules :=
  valueSets.foldl (fun t vs => buildRulesForValueSet vs t) tbl

/-! ## CodeScanner: `findAndCheckCodes` / `analyzeResource` -/

/-- The first phase of `findAndCheckCodes` on an object node:
`if (obj.system && obj.code)` look the key up in the rules and add the hit to
the matched set. -/
def checkSelf (rules : Rules) (fields : JFields) (acc : List Topic) : List Topic :=
  match fields.get "system", fields.get "code" with
  | some sv, some cv =>
    if sv.truthy && cv.truthy then
      match lookupRule rules (sv.jstr ++ "|" ++ cv.jstr) with
      | some t => addMatched acc t
      | none => acc
    else acc
  | _, _ => acc

mutual
/-- `findAndCheckCodes(obj, rules, matchedTopics)`.  Scalars and `null` return
immediately (`!obj || typeof obj !== 'object'`).  An object node runs, in
source order: the bare-code check (`checkSelf`), the CodeableConcept phase
(`fccCodingPhase`: recurse into each element of `obj.coding` when that property
is an array), then the reflective loop over every own property
(`fccFields` — note it iterates the `coding` property again).  A JS array also
has `typeof 'object'` and is traversed by the reflective loop over its indices
(`fccArrIn`). -/
def findAndCheckCodes (rules : Rules) : JVal → List Topic → List Topic
  | .str _, acc => acc
  | .num _, acc => acc
  | .boolean _, acc => acc
  | .null, acc => acc
  | .arr es, acc => fccArrIn rules es acc
  | .obj fields, acc =>
    fccFields rules fields (fccCodingPhase rules fields (checkSelf rules fields acc))
/-- `if (obj.coding && Array.isArray(obj.coding)) for (coding of obj.coding)
findAndCheckCodes(coding, ...)` — the property access is fused with the scan
of the field list (first field named `coding`). -/
def fccCodingPhase (rules : Rules) (fs : JFields) (acc : List Topic) : List Topic :=
  match fs with
  | .nil => acc
  | .cons k v rest =>
    if k == "coding" then
      match v with
      | .arr es => fccEach rules es acc
      | _ => acc
    else fccCodingPhase rules rest acc
/-- `for (item of array) findAndCheckCodes(item, ...)`. -/
def fccEach (rules : Rules) (es : JElems) (acc : List Topic) : List Topic :=
  match es with
  | .nil => acc
  | .cons v rest => fccEach rules rest (findAndCheckCodes rules v acc)
/-- The reflective `for (key in obj)` loop: an array-valued property has each
item scanned, an object-valued property is scanned recursively, `null` and
scalars are skipped (`findAndCheckCodes(null)` returns immediately). -/
def fccFields (rules : Rules) (fs : JFields) (acc : List Topic) : List Topic :=
  match fs with
  | .nil => acc
  | .cons _ v rest =>
    match v with
    | .arr es => fccFields rules rest (fccEach rules es acc)
    | .obj f2 => fccFields rules rest (findAndCheckCodes rules (.obj f2) acc)
    | _ => fccFields rules rest acc
/-- The `for (key in obj)` loop of `findAndCheckCodes` applied to an array
value: the keys are the indices, so each array-valued element has its items
scanned and each object-valued element is scanned recursively. -/
def fccArrIn (rules : Rules) (es : JElems) (acc : List Topic) : List Topic :=
  match es with
  | .nil => acc
  | .cons v rest =>
    match v with
    | .arr es2 => fccArrIn rules rest (fccEach rules es2 acc)
    | .obj f2 => fccArrIn rules rest (findAndCheckCodes rules (.obj f2) acc)
    | _ => fccArrIn rules rest acc
end

/-! ## Scanner instrumentation for the visit claims

`visitTrace` is `findAndCheckCodes` instrumented to record, instead of the
rule matches, every visit of a CodeIdentity-shaped node (an object node whose
`system` and `code` properties are both truthy), as the pair of their string
conversions.  It mirrors the traversal structure exactly; the visit set does
not depend on the rule table. -/

/-- A CodeIdentity occurrence: the (`system`, `code`) string pair. -/
abbrev CodeIdentity := String × String

/-- Whether an object node is CodeIdentity-shaped, and its identity: mirrors
the `if (obj.system && obj.code)` check of `findAndCheckCodes`. -/
def checkSelfVisit (fields : JFields) (acc : List CodeIdentity) : List CodeIdentity :=
  match fields.get "system", fields.get "code" with
  | some sv, some cv => if sv.truthy && cv.truthy then acc ++ [(sv.jstr, cv.jstr)] else acc
  | _, _ => acc

mutual
/-- The traversal of `findAndCheckCodes`, recording each visit of a
CodeIdentity-shaped node. -/
def visitTrace : JVal → List CodeIdentity → List CodeIdentity
  | .str _, acc => acc
  | .num _, acc => acc
  | .boolean _, acc => acc
  | .null, acc => acc
  | .arr es, acc => visitArrIn es acc
  | .obj fields, acc =>
    visitFields fields (visitCodingPhase fields (checkSelfVisit fields acc))
/-- Visit counterpart of `fccCodingPhase`. -/
def visitCodingPhase (fs : JFields) (acc : List CodeIdentity) : List CodeIdentity :=
  match fs with
  | .nil => acc
  | .cons k v rest =>
    if k == "coding" then
      match v with
      | .arr es => visitEach es acc
      | _ => acc
    else visitCodingPhase rest acc
/-- Visit counterpart of `fccEach`. -/
def visitEach : JElems → List CodeIdentity → List CodeIdentity
  | .nil, acc => acc
  | .cons v rest, acc => visitEach rest (visitTrace v acc)
/-- Visit counterpart of `fccFields`. -/
def visitFields : JFields → List CodeIdentity → List CodeIdentity
  | .nil, acc => acc
  | .cons _ v rest, acc =>
    match v with
    | .arr es => visitFields rest (visitEach es acc)
    | .obj f2 => visitFields rest (visitTrace (.obj f2) acc)
    | _ => visitFields rest acc
/-- Visit counterpart of `fccArrIn`. -/
def visitArrIn : JElems → List CodeIdentity → List CodeIdentity
  | .nil, acc => acc
  | .cons v rest, acc =>
    match v with
    | .arr es2 => visitArrIn rest (visitEach es2 acc)
    | .obj f2 => visitArrIn rest (visitTrace (.obj f2) acc)
    | _ => visitArrIn rest acc
end

mutual
/-- All CodeIdentity-shaped nodes occurring anywhere in a JSON tree (the
reachable code occurrences, defined by plain structural descent, independent
of the traversal). -/
def reachableCodes : JVal → List CodeIdentity
  | .str _ => []
  | .num _ => []
  | .boolean _ => []
  | .null => []
  | .arr es => reachableElems es
  | .obj fields => checkSelfVisit fields [] ++ reachableFields fields
/-- Reachable code occurrences under each field value of an object. -/
def reachableFields : JFields → List CodeIdentity
  | .nil => []
  | .cons _ v rest => reachableCodes v ++ reachableFields rest
/-- Reachable code occurrences under each element of an array. -/
def reachableElems : JElems → List CodeIdentity
  | .nil => []
  | .cons v rest => reachableCodes v ++ reachableElems rest
end

/-! ## Record model, SyncGate, LabelApplier -/

/-- A `meta.security` entry / a security label coding. -/
structure Label where
  system : String
  code : String
  display : String
  deriving DecidableEq

/-- A `meta.extension` entry (`url`, optional `valueDateTime` timestamp). -/
structure MetaExt where
  url : String
  valueDateTime : Option Int
  deriving DecidableEq

/-- A resource's `meta` block: `security` label list and `extension` list
(an absent list behaves as the empty list). -/
structure MetaBlock where
  security : List Label
  extension : List MetaExt
  deriving DecidableEq

/-- A clinical resource as the tagging pipeline reads it: `resourceType`,
`id`, optional `meta` block, and the JSON tree that `findAndCheckCodes`
scans for codes (`content` models the record body). -/
structure Resource where
  resourceType : String
  id : String
  meta : Option MetaBlock
  content : JVal
  deriving DecidableEq

def LAST_SOURCE_SYNC_URL : String := "http://hl7.org/fhir/StructureDefinition/lastSourceSync"

def SUPPORTED_RESOURCES : List String :=
  ["AllergyIntolerance", "Condition", "Procedure", "Immunization",
   "MedicationRequest", "Medication", "CarePlan", "CareTeam", "Goal",
   "Observation", "DiagnosticReport", "DocumentReference",
   "QuestionnaireResponse", "Specimen", "Encounter", "ServiceRequest"]

/-- `shouldSkipResource(resource, earliestDate)` of the backend service:
returns false when `earliestDate` is absent, `meta`/`meta.extension` is
absent, no `lastSourceSync` extension is found, or its `valueDateTime` is
falsy; otherwise skips iff `syncDate > new Date(earliestDate)` (strict). -/
def shouldSkipResource (resource : Resource) (earliestDate : Option Int) : Bool :=
  match earliestDate, resource.meta with
  | none, _ => false
  | some _, none => false
  | some e, some m =>
    match m.extension.find? (fun ext => ext.url == LAST_SOURCE_SYNC_URL) with
    | none => false
    | some syncExt =>
      match syncExt.valueDateTime with
      | none => false
      | some syncDate => e < syncDate

/-- `shouldSkipResource(resource, latestDate)` of the client-side reference
copy (unnamed part_000 of the sources): identical except for the final
comparison, `syncDate >= new Date(latestDate)` (inclusive). -/
def shouldSkipResourceClient (resource : Resource) (latestDate : Option Int) : Bool :=
  match latestDate, resource.meta with
  | none, _ => false
  | some _, none => false
  | some e, some m =>
    match m.extension.find? (fun ext => ext.url == LAST_SOURCE_SYNC_URL) with
    | none => false
    | some syncExt =>
      match syncExt.valueDateTime with
      | none => false
      | some syncDate => e ≤ syncDate

/-- `analyzeResource(resource, rules)`: run the recursive scan with a fresh
matched set over the record's JSON tree and return `Array.from(set)`. -/
def analyzeResource (rules : Rules) (resource : Resource) : List Topic :=
  findAndCheckCodes rules resource.content []

def confidentialitySystem : String := "http://terminology.hl7.org/CodeSystem/v3-Confidentiality"

def restrictedLabel : Label := ⟨confidentialitySystem, "R", "restricted"⟩

/-- The per-topic step of `applySecurityLabels`: append the topic label unless
one with the same `system` and `code` is already present. -/
def addTopicLabel (security : List Label) (topic : Topic) : List Label :=
  if security.any (fun sec => sec.system == topic.system && sec.code == topic.code) then security
  else security ++ [⟨topic.system, topic.code, topic.display⟩]

/-- The effect of `applySecurityLabels` on `resource.meta.security`: append
the restricted-confidentiality label unless present, then each matched topic
label unless present. -/
def applySecurityLabelsList (security : List Label) (matchedTopics : List Topic) : List Label :=
  let sec1 :=
    if security.any (fun sec => sec.system == confidentialitySystem && sec.code == "R") then security
    else security ++ [restrictedLabel]
  matchedTopics.foldl addTopicLabel sec1

/-- `applySecurityLabels(resource, matchedTopics)`: initializes `meta` /
`meta.security` when absent and updates the security list in place. -/
def applySecurityLabels (resource : Resource) (matchedTopics : List Topic) : Resource :=
  let m := resource.meta.getD ⟨[], []⟩
  ⟨resource.resourceType, resource.id,
   some ⟨applySecurityLabelsList m.security matchedTopics, m.extension⟩,
   resource.content⟩

/-- `addLastSourceSync(resource)`: initializes `meta` / `meta.extension` when
absent, removes every extension with the `lastSourceSync` url and pushes one
fresh extension carrying the current timestamp (`now`). -/
def addLastSourceSync (now : Int) (resource : Resource) : Resource :=
  let m := resource.meta.getD ⟨[], []⟩
  ⟨resource.resourceType, resource.id,
   some ⟨m.security,
         m.extension.filter (fun ext => ext.url ≠ LAST_SOURCE_SYNC_URL) ++
           [⟨LAST_SOURCE_SYNC_URL, some now⟩]⟩,
   resource.content⟩

/-- Number of reprocessing markers (`lastSourceSync` extensions) on a record. -/
def countMarkers (resource : Resource) : Nat :=
  match resource.meta with
  | none => 0
  | some m => m.extension.countP (fun ext => ext.url == LAST_SOURCE_SYNC_URL)

/-- The timestamp of the first reprocessing marker on a record, if any. -/
def markerValue (resource : Resource) : Option Int :=
  match resource.meta with
  | none => none
  | some m =>
    match m.extension.find? (fun ext => ext.url == LAST_SOURCE_SYNC_URL) with
    | none => none
    | some syncExt => syncExt.valueDateTime

/-! ## BundleAssembler and the two tagging operations -/

/-- One entry of an input Bundle: its `resource` field may be absent. -/
structure Entry where
  resource : Option Resource
  deriving DecidableEq

/-- The input Bundle of the tagging operations: `resourceType` and an
`entry` array that may be absent. -/
structure Bundle where
  resourceType : String
  entry : Option (List Entry)
  deriving DecidableEq

/-- One entry of the narrowed-mode output batch Bundle: the PUT update
directive (`createBatchEntry`) together with the processed resource. -/
structure BatchEntry where
  method : String
  url : String
  resource : Resource
  deriving DecidableEq

/-- `createBatchEntry(resource)`: `{ request: { method: 'PUT', url:
`${resourceType}/${id}` }, resource }`. -/
def createBatchEntry (resource : Resource) : BatchEntry :=
  ⟨"PUT", resource.resourceType ++ "/" ++ resource.id, resource⟩

/-- The label key used by `collectDistinctSecurityLabels`:
`` `${security.system}|${security.code}` ``. -/
def labelKey (l : Label) : String := l.system ++ "|" ++ l.code

/-- The per-label step of `collectDistinctSecurityLabels`: first occurrence of
a key wins (`Map` insertion order, `if (!securityMap.has(key)) set`). -/
def addDistinctLabel (m : List Label) (security : Label) : List Label :=
  if m.any (fun x => labelKey x == labelKey security) then m
  else m ++ [⟨security.system, security.code, security.display⟩]

/-- The security list of a resource (`resource.meta.security`, empty when
`meta` or the list is absent). -/
def securityOf (resource : Resource) : List Label :=
  match resource.meta with
  | none => []
  | some m => m.security

/-- `collectDistinctSecurityLabels(entries)`: for each entry it reads
`entry.resource.meta` — when the entry has no `resource` this dereference of
`undefined` throws a TypeError, modelled as `Except.error`. -/
def collectDistinctSecurityLabels : List (Option Resource) → List Label → Except String (List Label)
  | [], m => .ok m
  | none :: _, _ => .error "TypeError: Cannot read properties of undefined (reading 'meta')"
  | some r :: rest, m => collectDistinctSecurityLabels rest ((securityOf r).foldl addDistinctLabel m)

/-- The total value of `collectDistinctSecurityLabels` on entries that all
carry a resource. -/
def collectDistinctTotal : List Resource → List Label → List Label
  | [], m => m
  | r :: rest, m => collectDistinctTotal rest ((securityOf r).foldl addDistinctLabel m)

/-- Loop state of `analyzeResourceBundle`: `batchEntries` and the three
counters. -/
structure LoopState where
  entries : List BatchEntry
  analyzed : Nat
  labeled : Nat
  skipped : Nat
  deriving DecidableEq

/-- One iteration of the `analyzeResourceBundle` loop: entries without a
resource or with an unsupported `resourceType` are dropped; records gated by
`shouldSkipResource` only count as skipped; otherwise the record is scanned,
labelled when the matched set is non-empty, stamped by `addLastSourceSync`,
and emitted as a batch entry. -/
def processEntry (rules : Rules) (earliestDate : Option Int) (now : Int)
    (st : LoopState) (entry : Entry) : LoopState :=
  match entry.resource with
  | none => st
  | some resource =>
    if ¬ SUPPORTED_RESOURCES.contains resource.resourceType then st
    else if shouldSkipResource resource earliestDate then
      ⟨st.entries, st.analyzed, st.labeled, st.skipped + 1⟩
    else
      let matchedTopics := analyzeResource rules resource
      let r1 := if matchedTopics.length > 0 then applySecurityLabels resource matchedTopics else resource
      let labeledInc : Nat := if matchedTopics.length > 0 then 1 else 0
      let r2 := addLastSourceSync now r1
      ⟨st.entries ++ [createBatchEntry r2], st.analyzed + 1, st.labeled + labeledInc, st.skipped⟩

/-- The narrowed-mode output (`createBatchBundle`): the batch entries, the
processing-summary counters, and the bundle-level `meta.security` labels
(empty list when the source code would omit the field). -/
structure TagOutput where
  entries : List BatchEntry
  analyzed : Nat
  labeled : Nat
  skipped : Nat
  security : List Label
  deriving DecidableEq

/-- `analyzeResourceBundle(bundle)` (API 2, narrowed mode): validate the
bundle shape, reject an absent/empty entry array, reject when the rules table
is empty (checked once, before the loop), then process every entry and
assemble the batch bundle with `collectDistinctSecurityLabels`. -/
def analyzeResourceBundle (rules : Rules) (earliestDate : Option Int) (now : Int)
    (bundle : Option Bundle) : Except String TagOutput :=
  match bundle with
  | none => .error "Invalid Bundle: resourceType must be \"Bundle\""
  | some b =>
    if b.resourceType ≠ "Bundle" then .error "Invalid Bundle: resourceType must be \"Bundle\""
    else
      match b.entry with
      | none => .error "Bundle contains no entries"
      | some [] => .error "Bundle contains no entries"
      | some entries =>
        if rules.length = 0 then
          .error "No sensitive topic rules loaded. Please process ValueSets first (API 1)."
        else
          let st := entries.foldl (processEntry rules earliestDate now) ⟨[], 0, 0, 0⟩
          match collectDistinctSecurityLabels (st.entries.map (fun be => some be.resource)) [] with
          | .error e => .error e
          | .ok securityLabels =>
            .ok ⟨st.entries, st.analyzed, st.labeled, st.skipped, securityLabels⟩

/-- Loop state of `analyzeResourceBundleFull`: the updated entries (original
entries preserved for unsupported/skipped/resource-less positions) and the
three counters. -/
structure FullState where
  entries : List Entry
  analyzed : Nat
  labeled : Nat
  skipped : Nat
  deriving DecidableEq

/-- One iteration of the `analyzeResourceBundleFull` loop: entries without a
resource or with an unsupported type are kept as-is; skipped records are kept
as-is and counted; otherwise the copied resource is scanned, labelled when
matched, stamped, and the updated entry is emitted in place. -/
def processFullEntry (rules : Rules) (earliestDate : Option Int) (now : Int)
    (st : FullState) (entry : Entry) : FullState :=
  match entry.resource with
  | none => ⟨st.entries ++ [entry], st.analyzed, st.labeled, st.skipped⟩
  | some resource =>
    if ¬ SUPPORTED_RESOURCES.contains resource.resourceType then
      ⟨st.entries ++ [entry], st.analyzed, st.labeled, st.skipped⟩
    else if shouldSkipResource resource earliestDate then
      ⟨st.entries ++ [entry], st.analyzed, st.labeled, st.skipped + 1⟩
    else
      let matchedTopics := analyzeResource rules resource
      let r1 := if matchedTopics.length > 0 then applySecurityLabels resource matchedTopics else resource
      let labeledInc : Nat := if matchedTopics.length > 0 then 1 else 0
      let r2 := addLastSourceSync now r1
      ⟨st.entries ++ [⟨some r2⟩], st.analyzed + 1, st.labeled + labeledInc, st.skipped⟩

/-- The full-mode output bundle: every entry in input position, the
processing-summary counters, and the bundle-level security labels. -/
structure FullOutput where
  entries : List Entry
  analyzed : Nat
  labeled : Nat
  skipped : Nat
  security : List Label
  deriving DecidableEq

/-- `analyzeResourceBundleFull(bundle)` (API 2 variant, full mode): the same
preliminary checks as `analyzeResourceBundle`, then every entry is kept in
position (annotated where scanned) and `collectDistinctSecurityLabels` runs
over all updated entries — including entries that carry no resource. -/
def analyzeResourceBundleFull (rules : Rules) (earliestDate : Option Int) (now : Int)
    (bundle : Option Bundle) : Except String FullOutput :=
  match bundle with
  | none => .error "Invalid Bundle: resourceType must be \"Bundle\""
  | some b =>
    if b.resourceType ≠ "Bundle" then .error "Invalid Bundle: resourceType must be \"Bundle\""
    else
      match b.entry with
      | none => .error "Bundle contains no entries"
      | some [] => .error "Bundle contains no entries"
      | some entries =>
        if rules.length = 0 then
          .error "No sensitive topic rules loaded. Please process ValueSets first (API 1)."
        else
          let st := entries.foldl (processFullEntry rules earliestDate now) ⟨[], 0, 0, 0⟩
          match collectDistinctSecurityLabels (st.entries.map (fun e => e.resource)) [] with
          | .error e => .error e
          | .ok securityLabels =>
            .ok ⟨st.entries, st.analyzed, st.labeled, st.skipped, securityLabels⟩

/-! ## Specification-side definitions used to state the claims -/

/-- The per-label step of deduplication by the (labelSystem, labelCode) PAIR,
as the specification words it (first occurrence wins). -/
def addPairLabel (m : List Label) (security : Label) : List Label :=
  if m.any (fun x => x.system == security.system && x.code == security.code) then m
  else m ++ [⟨security.system, security.code, security.display⟩]

/-- Deduplication of a label list by the (labelSystem, labelCode) pair. -/
def dedupByPair (labels : List Label) : List Label :=
  labels.foldl addPairLabel []

/-- The concatenation of the emitted records' label lists ("the union ... of
the label lists of all emitted records"). -/
def allLabels (resources : List Resource) : List Label :=
  (resources.map securityOf).flatten

/-- Classification of a bundle entry by the narrowed-mode loop: scanned
(supported and not gated by `shouldSkipResource`). -/
def entryScanned (earliestDate : Option Int) (e : Entry) : Bool :=
  match e.resource with
  | none => false
  | some r => SUPPORTED_RESOURCES.contains r.resourceType && ¬ shouldSkipResource r earliestDate

/-- Classification of a bundle entry: supported but gated by
`shouldSkipResource`. -/
def entrySkipped (earliestDate : Option Int) (e : Entry) : Bool :=
  match e.resource with
  | none => false
  | some r => SUPPORTED_RESOURCES.contains r.resourceType && shouldSkipResource r earliestDate

/-- Classification of a bundle entry: scanned with a non-empty matched topic
set. -/
def entryLabeled (rules : Rules) (earliestDate : Option Int) (e : Entry) : Bool :=
  match e.resource with
  | none => false
  | some r =>
    SUPPORTED_RESOURCES.contains r.resourceType && ¬ shouldSkipResource r earliestDate &&
      ¬ (analyzeResource rules r).isEmpty

/-! ## Concrete inputs used by counterexamples and witnesses -/

def topicCoding1 : Coding := ⟨some "http://topicsys", some "T1", some "Topic One"⟩

def topicCoding2 : Coding := ⟨some "http://topicsys", some "T2", some "Topic Two"⟩

def topic1 : Topic := ⟨"T1", "http://topicsys", "Topic One"⟩

def topic2 : Topic := ⟨"T2", "http://topicsys", "Topic Two"⟩

/-- A ValueSet whose only member code is (http://sys, Y), with primary topic T1. -/
def vs1 : ValueSet :=
  ⟨some "vs1", [[topicCoding1]], [], .cons (.mk (some "http://sys") (some "Y") .nil) .nil⟩

/-- A second ValueSet with the same member code (http://sys, Y) and topic T2. -/
def vs2 : ValueSet :=
  ⟨some "vs2", [[topicCoding2]], [], .cons (.mk (some "http://sys") (some "Y") .nil) .nil⟩

/-- A single ValueSet carrying two focus topic codings T1 and T2 for the same
member code (http://sys, Y). -/
def vs12 : ValueSet :=
  ⟨some "vs12", [], [⟨some "focus", [topicCoding1, topicCoding2]⟩],
   .cons (.mk (some "http://sys") (some "Y") .nil) .nil⟩

/-- A Coding JSON node for (http://sys, Y). -/
def codingY : JVal :=
  .obj (.cons "system" (.str "http://sys") (.cons "code" (.str "Y") .nil))

/-- A supported record whose body contains the code (http://sys, Y) inside a
CodeableConcept. -/
def recY : Resource :=
  ⟨"Condition", "c1", none,
   .obj (.cons "code" (.obj (.cons "coding" (.arr (.cons codingY .nil)) .nil)) .nil)⟩

/-- A record carrying exactly one reprocessing marker with timestamp `m` and
no other metadata. -/
def recordWithMarker (m : Int) : Resource :=
  ⟨"Condition", "r1", some ⟨[], [⟨LAST_SOURCE_SYNC_URL, some m⟩]⟩, .null⟩

def rules10 : Rules := [("http://sys|Y", topic1)]

/-- A one-entry bundle whose single entry has no `resource` field. -/
def bundle10 : Bundle := ⟨"Bundle", some [⟨none⟩]⟩

/-! ## Theorems -/

/-- C1.  The spec and the code's own comment in `buildRules` promise that a
code mapped by several sources (or by several focus topics of one source)
accumulates the union of the topics.  But the `rules` table keys `code_key`
as PRIMARY KEY and writes with INSERT OR REPLACE, so each insert for the same
code REPLACES the previous topic: after compiling `vs1` (Y → T1) then `vs2`
(Y → T2), the table maps Y only to T2, and scanning a record containing Y
yields only {T2}, not {T1, T2}.  The same happens for a single source with
two focus topics. -/
theorem c1_rule_table_keeps_only_last_topic :
    buildRules [vs1, vs2] [] = [("http://sys|Y", topic2)] ∧
    analyzeResource (buildRules [vs1, vs2] []) recY = [topic2] ∧
    topic1 ∉ analyzeResource (buildRules [vs1, vs2] []) recY ∧
    buildRules [vs12] [] = [("http://sys|Y", topic2)] := by
  decide

/-- C2 counterexample.  The claim says a record whose marker timestamp equals
the EffectiveEpoch exactly is skipped; the backend `shouldSkipResource`
compares with strict `>`, so such a record is NOT skipped. -/
theorem c2_counterexample_equal_marker_not_skipped :
    shouldSkipResource (recordWithMarker 100) (some 100) = false := by
  decide

/-- C2 amended.  For a record with marker timestamp `m` and epoch `e`, the
backend skip decision is strict: skip iff `m > e`; in particular `m = e`
proceeds to scanning, as does `m = e - 1`.  The client-side reference copy
(unnamed part_000) instead uses the inclusive comparison `m ≥ e`. -/
theorem c2_skip_boundary_strict (m e : Int) :
    shouldSkipResource (recordWithMarker m) (some e) = decide (e < m) ∧
    shouldSkipResourceClient (recordWithMarker m) (some e) = decide (e ≤ m) := by
  constructor <;> rfl

/-- C10.  A valid non-empty batch containing an entry with no `resource`
field: full mode throws a TypeError (the collection-level label pass
dereferences the missing resource), while narrowed mode silently drops the
entry and succeeds with empty output and zero counters. -/
theorem c10_full_mode_type_error_on_missing_resource :
    analyzeResourceBundleFull rules10 none 0 (some bundle10) =
      .error "TypeError: Cannot read properties of undefined (reading 'meta')" ∧
    analyzeResourceBundle rules10 none 0 (some bundle10) = .ok ⟨[], 0, 0, 0, []⟩ :=
  ⟨rfl, rfl⟩

/-- C5.  Both tagging operations reject, before touching any record: a
missing or non-Bundle input, an absent or empty entry array, and (for
arbitrary non-empty batches, i.e. checked once per batch and not per record)
an empty compiled rule table — each as an error outcome with no output. -/
theorem c5_batch_rejected_before_processing :
    (∀ (rules : Rules) (ed : Option Int) (now : Int),
       analyzeResourceBundle rules ed now none =
         .error "Invalid Bundle: resourceType must be \"Bundle\"" ∧
       analyzeResourceBundleFull rules ed now none =
         .error "Invalid Bundle: resourceType must be \"Bundle\"") ∧
    (∀ (rules : Rules) (ed : Option Int) (now : Int) (b : Bundle), b.resourceType ≠ "Bundle" →
       analyzeResourceBundle rules ed now (some b) =
         .error "Invalid Bundle: resourceType must be \"Bundle\"" ∧
       analyzeResourceBundleFull rules ed now (some b) =
         .error "Invalid Bundle: resourceType must be \"Bundle\"") ∧
    (∀ (rules : Rules) (ed : Option Int) (now : Int),
       analyzeResourceBundle rules ed now (some ⟨"Bundle", none⟩) =
         .error "Bundle contains no entries" ∧
       analyzeResourceBundle rules ed now (some ⟨"Bundle", some []⟩) =
         .error "Bundle contains no entries" ∧
       analyzeResourceBundleFull rules ed now (some ⟨"Bundle", none⟩) =
         .error "Bundle contains no entries" ∧
       analyzeResourceBundleFull rules ed now (some ⟨"Bundle", some []⟩) =
         .error "Bundle contains no entries") ∧
    (∀ (ed : Option Int) (now : Int) (entries : List Entry), entries ≠ [] →
       analyzeResourceBundle [] ed now (some ⟨"Bundle", some entries⟩) =
         .error "No sensitive topic rules loaded. Please process ValueSets first (API 1)." ∧
       analyzeResourceBundleFull [] ed now (some ⟨"Bundle", some entries⟩) =
         .error "No sensitive topic rules loaded. Please process ValueSets first (API 1).") := by
  refine ⟨fun rules ed now => ⟨rfl, rfl⟩, ?_, ?_, ?_⟩
  · intro rules ed now b hb
    constructor <;> simp [analyzeResourceBundle, analyzeResourceBundleFull, hb]
  · intro rules ed now
    refine ⟨rfl, rfl, rfl, rfl⟩
  · intro ed now entries hne
    match entries, hne with
    | e :: es, _ =>
      constructor <;> rfl

/-- C5 witness: concrete instantiations discharging the hypotheses of the
conditional conjuncts. -/
theorem c5_batch_rejected_witness :
    analyzeResourceBundle [] none 0 (some ⟨"Patient", none⟩) =
      .error "Invalid Bundle: resourceType must be \"Bundle\"" ∧
    analyzeResourceBundle [] none 0 (some ⟨"Bundle", some [⟨none⟩]⟩) =
      .error "No sensitive topic rules loaded. Please process ValueSets first (API 1)." :=
  ⟨(c5_batch_rejected_before_processing.2.1 [] none 0 ⟨"Patient", none⟩ (by decide)).1,
   (c5_batch_rejected_before_processing.2.2.2 none 0 [⟨none⟩] (by decide)).1⟩

/-- Appending-only step: `addTopicLabel` preserves any existing `any`-witness. -/
theorem any_addTopicLabel (p : Label → Bool) (security : List Label) (t : Topic)
    (h : security.any p = true) : (addTopicLabel security t).any p = true := by
  unfold addTopicLabel
  split
  · exact h
  · simp [List.any_append, h]

/-- Folding `addTopicLabel` preserves any existing `any`-witness. -/
theorem any_foldl_addTopicLabel (p : Label → Bool) (M : List Topic) (security : List Label)
    (h : security.any p = true) : (M.foldl addTopicLabel security).any p = true := by
  induction M generalizing security with
  | nil => exact h
  | cons t rest ih => exact ih _ (any_addTopicLabel p security t h)

/-- After `addTopicLabel security t`, a label matching `t` is present. -/
theorem any_addTopicLabel_self (security : List Label) (t : Topic) :
    (addTopicLabel security t).any
      (fun sec => sec.system == t.system && sec.code == t.code) = true := by
  unfold addTopicLabel
  split
  · assumption
  · simp [List.any_append]

/-- Every topic of the matched set is present after the `applySecurityLabels`
fold. -/
theorem any_foldl_addTopicLabel_mem (M : List Topic) (security : List Label) (t : Topic)
    (ht : t ∈ M) :
    ((M.foldl addTopicLabel security).any
      (fun sec => sec.system == t.system && sec.code == t.code)) = true := by
  induction M generalizing security with
  | nil => cases ht
  | cons u rest ih =>
    rcases List.mem_cons.mp ht with h | h
    · subst h
      exact any_foldl_addTopicLabel _ rest _ (any_addTopicLabel_self security t)
    · exact ih _ h

/-- `addTopicLabel` does nothing when a label matching the topic is already
present. -/
theorem addTopicLabel_of_present (security : List Label) (t : Topic)
    (h : security.any (fun sec => sec.system == t.system && sec.code == t.code) = true) :
    addTopicLabel security t = security := by
  unfold addTopicLabel
  simp [h]

/-- The `applySecurityLabels` fold does nothing when every matched topic is
already present. -/
theorem foldl_addTopicLabel_of_all_present (M : List Topic) (security : List Label)
    (h : ∀ t ∈ M, security.any
          (fun sec => sec.system == t.system && sec.code == t.code) = true) :
    M.foldl addTopicLabel security = security := by
  induction M with
  | nil => rfl
  | cons t rest ih =>
    have h1 := addTopicLabel_of_present security t (h t (List.mem_cons_self t rest))
    simp only [List.foldl_cons, h1]
    exact ih (fun u hu => h u (List.mem_cons_of_mem t hu))

/-- The restricted-confidentiality label is present after
`applySecurityLabelsList`. -/
theorem hasRestricted_applySecurityLabelsList (security : List Label) (M : List Topic) :
    ((applySecurityLabelsList security M).any
      (fun sec => sec.system == confidentialitySystem && sec.code == "R")) = true := by
  unfold applySecurityLabelsList
  apply any_foldl_addTopicLabel
  split
  · assumption
  · simp [List.any_append, restrictedLabel]

/-- List-level idempotence of the label-application step. -/
theorem applySecurityLabelsList_idem (security : List Label) (M : List Topic) :
    applySecurityLabelsList (applySecurityLabelsList security M) M =
      applySecurityLabelsList security M := by
  have hrc := hasRestricted_applySecurityLabelsList security M
  have hall : ∀ t ∈ M, ((applySecurityLabelsList security M).any
      (fun sec => sec.system == t.system && sec.code == t.code)) = true := by
    intro t ht
    unfold applySecurityLabelsList
    exact any_foldl_addTopicLabel_mem M _ t ht
  generalize hout : applySecurityLabelsList security M = out at hrc hall ⊢
  unfold applySecurityLabelsList
  simp only [hrc, if_true]
  exact foldl_addTopicLabel_of_all_present M out hall

/-- C7.  Label application is idempotent: applying `applySecurityLabels`
twice in sequence with the same matched topic set yields the same record —
in particular an identical security-label list — as applying it once. -/
theorem c7_applySecurityLabels_idempotent (resource : Resource) (matchedTopics : List Topic) :
    applySecurityLabels (applySecurityLabels resource matchedTopics) matchedTopics =
      applySecurityLabels resource matchedTopics := by
  unfold applySecurityLabels
  simp [applySecurityLabelsList_idem]

/-- Counting markers among extensions: the filtered prefix contributes none. -/
theorem countP_marker_filter (l : List MetaExt) :
    (l.filter (fun ext => ext.url ≠ LAST_SOURCE_SYNC_URL)).countP
      (fun ext => ext.url == LAST_SOURCE_SYNC_URL) = 0 := by
  induction l with
  | nil => rfl
  | cons a rest ih =>
    by_cases h : a.url = LAST_SOURCE_SYNC_URL
    · simp [List.filter_cons, h, ih]
    · simp [List.filter_cons, h, List.countP_cons, ih]

/-- Finding the marker after the filter-and-push: only the pushed extension
matches. -/
theorem find?_marker_filter (l : List MetaExt) (x : MetaExt) :
    ((l.filter (fun ext => ext.url ≠ LAST_SOURCE_SYNC_URL)) ++ [x]).find?
      (fun ext => ext.url == LAST_SOURCE_SYNC_URL) =
      if x.url == LAST_SOURCE_SYNC_URL then some x else none := by
  have h1 : (l.filter (fun ext => ext.url ≠ LAST_SOURCE_SYNC_URL)).find?
      (fun ext => ext.url == LAST_SOURCE_SYNC_URL) = none := by
    induction l with
    | nil => rfl
    | cons a rest ih =>
      by_cases h : a.url = LAST_SOURCE_SYNC_URL <;>
        simp [List.filter_cons, h, List.find?, ih]
  by_cases h : x.url = LAST_SOURCE_SYNC_URL
  · simp [List.find?_append, h1, List.find?, h]
  · have hb : (x.url == LAST_SOURCE_SYNC_URL) = false := by simp [h]
    simp [List.find?_append, h1, List.find?, hb, h]

/-- After `addLastSourceSync` a record carries exactly one reprocessing
marker, and it holds the current timestamp. -/
theorem addLastSourceSync_marker (now : Int) (resource : Resource) :
    countMarkers (addLastSourceSync now resource) = 1 ∧
    markerValue (addLastSourceSync now resource) = some now := by
  unfold addLastSourceSync countMarkers markerValue
  constructor
  · simp [List.countP_append, countP_marker_filter, List.countP_cons]
  · simp [find?_marker_filter]
    have hnone : List.find? (fun a => false)
        (resource.meta.getD ⟨[], []⟩).extension = none := by
      simp [List.find?_eq_none]
    simp [hnone]

/-- The narrowed-mode loop step either leaves the emitted entries unchanged
or appends one entry whose resource just went through `addLastSourceSync`. -/
theorem processEntry_entries_shape (rules : Rules) (ed : Option Int) (now : Int)
    (st : LoopState) (e : Entry) :
    (processEntry rules ed now st e).entries = st.entries ∨
    ∃ r, (processEntry rules ed now st e).entries =
      st.entries ++ [createBatchEntry (addLastSourceSync now r)] := by
  rcases he : e.resource with _ | resource <;> simp only [processEntry, he]
  · simp
  · split
    · simp
    · split
      · simp
      · exact Or.inr ⟨_, rfl⟩

/-- Every batch entry emitted by the narrowed-mode loop carries exactly one
reprocessing marker stamped with the current timestamp. -/
theorem foldl_processEntry_marker (rules : Rules) (ed : Option Int) (now : Int) :
    ∀ (l : List Entry) (st : LoopState),
      (∀ be ∈ st.entries, countMarkers be.resource = 1 ∧ markerValue be.resource = some now) →
      ∀ be ∈ (l.foldl (processEntry rules ed now) st).entries,
        countMarkers be.resource = 1 ∧ markerValue be.resource = some now := by
  intro l
  induction l with
  | nil => exact fun st h be hbe => h be hbe
  | cons e rest ih =>
    intro st h
    simp only [List.foldl_cons]
    apply ih
    intro be hbe
    rcases processEntry_entries_shape rules ed now st e with hsh | ⟨r, hsh⟩
    · rw [hsh] at hbe
      exact h be hbe
    · rw [hsh] at hbe
      rcases List.mem_append.mp hbe with hold | hnew
      · exact h be hold
      · have hbe2 : be = createBatchEntry (addLastSourceSync now r) := List.mem_singleton.mp hnew
        subst hbe2
        exact addLastSourceSync_marker now r

/-- C8.  `addLastSourceSync` removes any existing reprocessing marker and
appends exactly one fresh marker with the current timestamp, for every record
(labelled or not); consequently every record emitted by the tagging loop
carries exactly one marker stamped `now`. -/
theorem c8_exactly_one_fresh_marker :
    (∀ (now : Int) (resource : Resource),
        countMarkers (addLastSourceSync now resource) = 1 ∧
        markerValue (addLastSourceSync now resource) = some now) ∧
    (∀ (rules : Rules) (earliestDate : Option Int) (now : Int) (entries : List Entry),
        ∀ be ∈ (entries.foldl (processEntry rules earliestDate now) ⟨[], 0, 0, 0⟩).entries,
          countMarkers be.resource = 1 ∧ markerValue be.resource = some now) := by
  constructor
  · exact addLastSourceSync_marker
  · intro rules ed now entries
    apply foldl_processEntry_marker
    intro be hbe
    simp at hbe

/-- A plain supported record with no metadata and no codes. -/
def r6 : Resource := ⟨"Condition", "x1", none, .null⟩

/-- C8 witness: the single emitted entry of a one-record batch carries
exactly one fresh marker. -/
theorem c8_exactly_one_fresh_marker_witness :
    countMarkers (createBatchEntry (addLastSourceSync 7 r6)).resource = 1 ∧
    markerValue (createBatchEntry (addLastSourceSync 7 r6)).resource = some 7 :=
  c8_exactly_one_fresh_marker.2 rules10 none 7 [⟨some r6⟩]
    (createBatchEntry (addLastSourceSync 7 r6)) (by decide)

/-- Counter and entry-count deltas of one narrowed-mode loop iteration, in
terms of the entry classifiers. -/
theorem processEntry_deltas (rules : Rules) (ed : Option Int) (now : Int)
    (st : LoopState) (e : Entry) :
    (processEntry rules ed now st e).analyzed =
      st.analyzed + (if entryScanned ed e then 1 else 0) ∧
    (processEntry rules ed now st e).labeled =
      st.labeled + (if entryLabeled rules ed e then 1 else 0) ∧
    (processEntry rules ed now st e).skipped =
      st.skipped + (if entrySkipped ed e then 1 else 0) ∧
    (processEntry rules ed now st e).entries.length =
      st.entries.length + (if entryScanned ed e then 1 else 0) := by
  rcases hres : e.resource with _ | r
  · simp [processEntry, hres, entryScanned, entrySkipped, entryLabeled]
  · by_cases hsup : SUPPORTED_RESOURCES.contains r.resourceType = true
    · have hmem : r.resourceType ∈ SUPPORTED_RESOURCES := by simpa using hsup
      by_cases hskip : shouldSkipResource r ed = true
      · simp [processEntry, hres, entryScanned, entrySkipped, entryLabeled, hsup, hmem, hskip]
      · by_cases hm : analyzeResource rules r = []
        · simp [processEntry, hres, entryScanned, entrySkipped, entryLabeled, hsup, hmem, hskip, hm]
        · have hlen : (analyzeResource rules r).length > 0 := List.length_pos.mpr hm
          simp [processEntry, hres, entryScanned, entrySkipped, entryLabeled, hsup, hmem, hskip, hm,
            hlen, List.isEmpty_iff]
    · have hmem : r.resourceType ∉ SUPPORTED_RESOURCES := by simpa using hsup
      simp [processEntry, hres, entryScanned, entrySkipped, entryLabeled, hsup, hmem]

/-- The narrowed-mode loop computes its counters as counts of the entry
classifiers, and emits exactly one batch entry per scanned record. -/
theorem foldl_processEntry_counts (rules : Rules) (ed : Option Int) (now : Int) :
    ∀ (l : List Entry) (st : LoopState),
      (l.foldl (processEntry rules ed now) st).analyzed =
        st.analyzed + l.countP (entryScanned ed) ∧
      (l.foldl (processEntry rules ed now) st).labeled =
        st.labeled + l.countP (entryLabeled rules ed) ∧
      (l.foldl (processEntry rules ed now) st).skipped =
        st.skipped + l.countP (entrySkipped ed) ∧
      (l.foldl (processEntry rules ed now) st).entries.length =
        st.entries.length + l.countP (entryScanned ed) := by
  intro l
  induction l with
  | nil => intro st; simp
  | cons e rest ih =>
    intro st
    obtain ⟨ha, hl, hs, hel⟩ := ih (processEntry rules ed now st e)
    obtain ⟨da, dl, ds, del⟩ := processEntry_deltas rules ed now st e
    simp only [List.foldl_cons, List.countP_cons, ha, hl, hs, hel, da, dl, ds, del]
    refine ⟨by omega, by omega, by omega, by omega⟩

/-- The collection-label pass never fails on the narrowed-mode batch entries
(every one of them carries a resource), and computes `collectDistinctTotal`. -/
theorem collect_entries_ok (l : List BatchEntry) (m : List Label) :
    collectDistinctSecurityLabels (l.map (fun be => some be.resource)) m =
      .ok (collectDistinctTotal (l.map (fun be => be.resource)) m) := by
  induction l generalizing m with
  | nil => rfl
  | cons be rest ih => simp [collectDistinctSecurityLabels, collectDistinctTotal, ih]

/-- C6.  In narrowed mode a well-shaped, non-empty batch with compiled rules
succeeds, the output contains exactly one entry per scanned record (none for
skipped, unsupported or resource-less entries), and the counters satisfy
analyzed = number of supported-and-not-skipped records, labeled = number of
scanned records with a non-empty matched set, skipped = number of supported
records gated by `shouldSkipResource`. -/
theorem c6_narrowed_entries_and_counters (rules : Rules) (ed : Option Int) (now : Int)
    (entries : List Entry) (hrules : rules ≠ []) (hne : entries ≠ []) :
    ∃ outEntries securityLabels,
      analyzeResourceBundle rules ed now (some ⟨"Bundle", some entries⟩) =
        .ok ⟨outEntries, entries.countP (entryScanned ed),
             entries.countP (entryLabeled rules ed),
             entries.countP (entrySkipped ed), securityLabels⟩ ∧
      outEntries.length = entries.countP (entryScanned ed) := by
  match entries, hne with
  | e :: es, _ =>
    have hlen : ¬ rules.length = 0 := by
      simpa [List.length_eq_zero] using hrules
    obtain ⟨ha, hl, hs, hel⟩ :=
      foldl_processEntry_counts rules ed now (e :: es) ⟨[], 0, 0, 0⟩
    refine ⟨((e :: es).foldl (processEntry rules ed now) ⟨[], 0, 0, 0⟩).entries,
            collectDistinctTotal
              (((e :: es).foldl (processEntry rules ed now) ⟨[], 0, 0, 0⟩).entries.map
                (fun be => be.resource)) [], ?_, ?_⟩
    · simp only [analyzeResourceBundle, if_neg hlen, collect_entries_ok]
      simp only at ha hl hs
      rw [ha, hl, hs]
      simp
    · simpa using hel

/-- A supported record carrying a reprocessing marker at timestamp 200. -/
def recSkip (i : String) : Resource :=
  ⟨"Condition", i, some ⟨[], [⟨LAST_SOURCE_SYNC_URL, some 200⟩]⟩, .null⟩

/-- A supported record with no codes in its body. -/
def recNoMatch (i : String) : Resource := ⟨"Observation", i, none, .null⟩

/-- Scenario D batch: five records, two gated by the marker, two scanned
without a match, one scanned with a match. -/
def entries5 : List Entry :=
  [⟨some (recSkip "s1")⟩, ⟨some (recSkip "s2")⟩, ⟨some (recNoMatch "n1")⟩,
   ⟨some (recNoMatch "n2")⟩, ⟨some recY⟩]

/-- C6 witness (Scenario D): the 5-record batch with 2 skipped, 3 scanned,
1 labeled yields exactly 3 output entries and counters {3, 1, 2}. -/
theorem c6_scenario_d_witness :
    entries5.countP (entryScanned (some 100)) = 3 ∧
    entries5.countP (entryLabeled rules10 (some 100)) = 1 ∧
    entries5.countP (entrySkipped (some 100)) = 2 ∧
    (∃ outEntries securityLabels,
       analyzeResourceBundle rules10 (some 100) 500 (some ⟨"Bundle", some entries5⟩) =
         .ok ⟨outEntries, entries5.countP (entryScanned (some 100)),
              entries5.countP (entryLabeled rules10 (some 100)),
              entries5.countP (entrySkipped (some 100)), securityLabels⟩ ∧
       outEntries.length = entries5.countP (entryScanned (some 100))) :=
  ⟨by decide, by decide, by decide,
   c6_narrowed_entries_and_counters rules10 (some 100) 500 entries5 (by decide) (by decide)⟩

/-- The bare-code visit check only appends to its accumulator. -/
theorem checkSelfVisit_append (fields : JFields) (acc : List CodeIdentity) :
    checkSelfVisit fields acc = acc ++ checkSelfVisit fields [] := by
  rcases hsv : fields.get "system" with _ | sv <;>
    rcases hcv : fields.get "code" with _ | cv <;>
      simp [checkSelfVisit, hsv, hcv]
  split <;> simp

mutual
/-- The visit trace only appends to its accumulator. -/
theorem visitTrace_append : ∀ (v : JVal) (acc : List CodeIdentity),
    visitTrace v acc = acc ++ visitTrace v []
  | .str _, acc => by simp [visitTrace]
  | .num _, acc => by simp [visitTrace]
  | .boolean _, acc => by simp [visitTrace]
  | .null, acc => by simp [visitTrace]
  | .arr es, acc => by simp [visitTrace, visitArrIn_append es acc]
  | .obj fields, acc => by
    simp only [visitTrace]
    rw [visitFields_append fields (visitCodingPhase fields (checkSelfVisit fields acc)),
        visitCodingPhase_append fields (checkSelfVisit fields acc),
        checkSelfVisit_append fields acc,
        visitFields_append fields (visitCodingPhase fields (checkSelfVisit fields [])),
        visitCodingPhase_append fields (checkSelfVisit fields [])]
    simp [List.append_assoc]
termination_by v acc => sizeOf v
decreasing_by all_goals (subst_vars; first | (simp; omega) | simp | omega)
/-- The coding-phase visit walk only appends to its accumulator. -/
theorem visitCodingPhase_append : ∀ (fs : JFields) (acc : List CodeIdentity),
    visitCodingPhase fs acc = acc ++ visitCodingPhase fs []
  | .nil, acc => by simp [visitCodingPhase]
  | .cons k v rest, acc => by
    cases v with
    | arr es =>
      by_cases hk : (k == "coding") = true
      · simp [visitCodingPhase, hk, visitEach_append es acc]
      · simp [visitCodingPhase, hk, visitCodingPhase_append rest acc]
    | str s =>
      by_cases hk : (k == "coding") = true <;>
        simp [visitCodingPhase, hk, visitCodingPhase_append rest acc]
    | num n =>
      by_cases hk : (k == "coding") = true <;>
        simp [visitCodingPhase, hk, visitCodingPhase_append rest acc]
    | boolean b =>
      by_cases hk : (k == "coding") = true <;>
        simp [visitCodingPhase, hk, visitCodingPhase_append rest acc]
    | null =>
      by_cases hk : (k == "coding") = true <;>
        simp [visitCodingPhase, hk, visitCodingPhase_append rest acc]
    | obj f2 =>
      by_cases hk : (k == "coding") = true <;>
        simp [visitCodingPhase, hk, visitCodingPhase_append rest acc]
termination_by fs acc => sizeOf fs
decreasing_by all_goals (subst_vars; first | (simp; omega) | simp | omega)
/-- The per-element visit walk only appends to its accumulator. -/
theorem visitEach_append : ∀ (es : JElems) (acc : List CodeIdentity),
    visitEach es acc = acc ++ visitEach es []
  | .nil, acc => by simp [visitEach]
  | .cons v rest, acc => by
    simp only [visitEach]
    rw [visitEach_append rest (visitTrace v acc), visitTrace_append v acc,
        visitEach_append rest (visitTrace v [])]
    simp [List.append_assoc]
termination_by es acc => sizeOf es
decreasing_by all_goals (subst_vars; first | (simp; omega) | simp | omega)
/-- The field-loop visit walk only appends to its accumulator. -/
theorem visitFields_append : ∀ (fs : JFields) (acc : List CodeIdentity),
    visitFields fs acc = acc ++ visitFields fs []
  | .nil, acc => by simp [visitFields]
  | .cons k v rest, acc => by
    cases v with
    | arr es =>
      simp only [visitFields]
      rw [visitFields_append rest (visitEach es acc), visitEach_append es acc,
          visitFields_append rest (visitEach es [])]
      simp [List.append_assoc]
    | obj f2 =>
      simp only [visitFields]
      rw [visitFields_append rest (visitTrace (.obj f2) acc), visitTrace_append (.obj f2) acc,
          visitFields_append rest (visitTrace (.obj f2) [])]
      simp [List.append_assoc]
    | str s => simp [visitFields, visitFields_append rest acc]
    | num n => simp [visitFields, visitFields_append rest acc]
    | boolean b => simp [visitFields, visitFields_append rest acc]
    | null => simp [visitFields, visitFields_append rest acc]
termination_by fs acc => sizeOf fs
decreasing_by all_goals (subst_vars; first | (simp; omega) | simp | omega)
/-- The array-index visit walk only appends to its accumulator. -/
theorem visitArrIn_append : ∀ (es : JElems) (acc : List CodeIdentity),
    visitArrIn es acc = acc ++ visitArrIn es []
  | .nil, acc => by simp [visitArrIn]
  | .cons v rest, acc => by
    cases v with
    | arr es2 =>
      simp only [visitArrIn]
      rw [visitArrIn_append rest (visitEach es2 acc), visitEach_append es2 acc,
          visitArrIn_append rest (visitEach es2 [])]
      simp [List.append_assoc]
    | obj f2 =>
      simp only [visitArrIn]
      rw [visitArrIn_append rest (visitTrace (.obj f2) acc), visitTrace_append (.obj f2) acc,
          visitArrIn_append rest (visitTrace (.obj f2) [])]
      simp [List.append_assoc]
    | str s => simp [visitArrIn, visitArrIn_append rest acc]
    | num n => simp [visitArrIn, visitArrIn_append rest acc]
    | boolean b => simp [visitArrIn, visitArrIn_append rest acc]
    | null => simp [visitArrIn, visitArrIn_append rest acc]
termination_by es acc => sizeOf es
decreasing_by all_goals (subst_vars; first | (simp; omega) | simp | omega)
end

mutual
/-- Every reachable code occurrence of a tree appears in the visit trace. -/
theorem reachable_mem_visitTrace : ∀ (v : JVal) (p : CodeIdentity),
    p ∈ reachableCodes v → p ∈ visitTrace v []
  | .str _, p, h => by simp [reachableCodes] at h
  | .num _, p, h => by simp [reachableCodes] at h
  | .boolean _, p, h => by simp [reachableCodes] at h
  | .null, p, h => by simp [reachableCodes] at h
  | .arr es, p, h => by
    simp only [reachableCodes] at h
    simp only [visitTrace]
    exact reachable_mem_visitArrIn es p h
  | .obj fields, p, h => by
    simp only [reachableCodes] at h
    simp only [visitTrace]
    rw [visitFields_append fields (visitCodingPhase fields (checkSelfVisit fields [])),
        visitCodingPhase_append fields (checkSelfVisit fields [])]
    rcases List.mem_append.mp h with h1 | h2
    · exact List.mem_append.mpr (Or.inl (List.mem_append.mpr (Or.inl h1)))
    · exact List.mem_append.mpr (Or.inr (reachable_mem_visitFields fields p h2))
termination_by v p h => sizeOf v
decreasing_by all_goals (subst_vars; first | (simp; omega) | simp | omega)
/-- Every reachable code occurrence under the fields of an object appears in
the field-loop visit walk. -/
theorem reachable_mem_visitFields : ∀ (fs : JFields) (p : CodeIdentity),
    p ∈ reachableFields fs → p ∈ visitFields fs []
  | .nil, p, h => by simp [reachableFields] at h
  | .cons k v rest, p, h => by
    simp only [reachableFields] at h
    rcases List.mem_append.mp h with h1 | h2
    · cases v with
      | arr es =>
        simp only [reachableCodes] at h1
        simp only [visitFields]
        rw [visitFields_append rest (visitEach es [])]
        exact List.mem_append.mpr (Or.inl (reachable_mem_visitEach es p h1))
      | obj f2 =>
        simp only [visitFields]
        rw [visitFields_append rest (visitTrace (.obj f2) [])]
        exact List.mem_append.mpr (Or.inl (reachable_mem_visitTrace (.obj f2) p h1))
      | str s => simp [reachableCodes] at h1
      | num n => simp [reachableCodes] at h1
      | boolean b => simp [reachableCodes] at h1
      | null => simp [reachableCodes] at h1
    · cases v with
      | arr es =>
        simp only [visitFields]
        rw [visitFields_append rest (visitEach es [])]
        exact List.mem_append.mpr (Or.inr (reachable_mem_visitFields rest p h2))
      | obj f2 =>
        simp only [visitFields]
        rw [visitFields_append rest (visitTrace (.obj f2) [])]
        exact List.mem_append.mpr (Or.inr (reachable_mem_visitFields rest p h2))
      | str s => simp only [visitFields]; exact reachable_mem_visitFields rest p h2
      | num n => simp only [visitFields]; exact reachable_mem_visitFields rest p h2
      | boolean b => simp only [visitFields]; exact reachable_mem_visitFields rest p h2
      | null => simp only [visitFields]; exact reachable_mem_visitFields rest p h2
termination_by fs p h => sizeOf fs
decreasing_by all_goals (subst_vars; first | (simp; omega) | simp | omega)
/-- Every reachable code occurrence under the elements of an array appears in
the per-element visit walk. -/
theorem reachable_mem_visitEach : ∀ (es : JElems) (p : CodeIdentity),
    p ∈ reachableElems es → p ∈ visitEach es []
  | .nil, p, h => by simp [reachableElems] at h
  | .cons v rest, p, h => by
    simp only [reachableElems] at h
    simp only [visitEach]
    rw [visitEach_append rest (visitTrace v [])]
    rcases List.mem_append.mp h with h1 | h2
    · exact List.mem_append.mpr (Or.inl (reachable_mem_visitTrace v p h1))
    · exact List.mem_append.mpr (Or.inr (reachable_mem_visitEach rest p h2))
termination_by es p h => sizeOf es
decreasing_by all_goals (subst_vars; first | (simp; omega) | simp | omega)
/-- Every reachable code occurrence under the elements of an array appears in
the array-index visit walk. -/
theorem reachable_mem_visitArrIn : ∀ (es : JElems) (p : CodeIdentity),
    p ∈ reachableElems es → p ∈ visitArrIn es []
  | .nil, p, h => by simp [reachableElems] at h
  | .cons v rest, p, h => by
    simp only [reachableElems] at h
    rcases List.mem_append.mp h with h1 | h2
    · cases v with
      | arr es2 =>
        simp only [reachableCodes] at h1
        simp only [visitArrIn]
        rw [visitArrIn_append rest (visitEach es2 [])]
        exact List.mem_append.mpr (Or.inl (reachable_mem_visitEach es2 p h1))
      | obj f2 =>
        simp only [visitArrIn]
        rw [visitArrIn_append rest (visitTrace (.obj f2) [])]
        exact List.mem_append.mpr (Or.inl (reachable_mem_visitTrace (.obj f2) p h1))
      | str s => simp [reachableCodes] at h1
      | num n => simp [reachableCodes] at h1
      | boolean b => simp [reachableCodes] at h1
      | null => simp [reachableCodes] at h1
    · cases v with
      | arr es2 =>
        simp only [visitArrIn]
        rw [visitArrIn_append rest (visitEach es2 [])]
        exact List.mem_append.mpr (Or.inr (reachable_mem_visitArrIn rest p h2))
      | obj f2 =>
        simp only [visitArrIn]
        rw [visitArrIn_append rest (visitTrace (.obj f2) [])]
        exact List.mem_append.mpr (Or.inr (reachable_mem_visitArrIn rest p h2))
      | str s => simp only [visitArrIn]; exact reachable_mem_visitArrIn rest p h2
      | num n => simp only [visitArrIn]; exact reachable_mem_visitArrIn rest p h2
      | boolean b => simp only [visitArrIn]; exact reachable_mem_visitArrIn rest p h2
      | null => simp only [visitArrIn]; exact reachable_mem_visitArrIn rest p h2
termination_by es p h => sizeOf es
decreasing_by all_goals (subst_vars; first | (simp; omega) | simp | omega)
end

/-- A record body with a single CodeIdentity-shaped node inside a `coding`
array. -/
def recDouble : JVal := .obj (.cons "coding" (.arr (.cons codingY .nil)) .nil)

/-- C3 counterexample.  The claim says every reachable CodeIdentity-shaped
node is visited exactly once; but a node inside a `coding` array is visited by
the CodeableConcept branch AND again by the reflective field loop (which
re-iterates the `coding` property), so its single reachable occurrence
appears twice in the visit trace. -/
theorem c3_counterexample_coding_visited_twice :
    (visitTrace recDouble []).count ("http://sys", "Y") = 2 ∧
    (reachableCodes recDouble).count ("http://sys", "Y") = 1 := by
  decide

/-- C3 amended.  Every reachable CodeIdentity-shaped node IS visited at least
once by the traversal (no node is missed), but nodes under a `coding` array
property are visited twice, so "exactly once" fails; the matched topic SET is
unaffected because the match accumulator is a deduplicating set. -/
theorem c3_every_reachable_code_visited (v : JVal) (p : CodeIdentity)
    (h : p ∈ reachableCodes v) : p ∈ visitTrace v [] :=
  reachable_mem_visitTrace v p h

/-- C3 witness: the code under the `coding` array is reachable and visited. -/
theorem c3_every_reachable_code_visited_witness :
    ("http://sys", "Y") ∈ reachableCodes recDouble ∧
    ("http://sys", "Y") ∈ visitTrace recDouble [] :=
  ⟨by decide, c3_every_reachable_code_visited recDouble ("http://sys", "Y") (by decide)⟩

/-- A record body nesting the coding (http://sys, Y) under `d` object
layers. -/
def nestedCode : Nat → JVal
  | 0 => codingY
  | d + 1 => .obj (.cons "item" (nestedCode d) .nil)

/-- Every `nestedCode` tree is an object node. -/
theorem nestedCode_isObj : ∀ d : Nat, ∃ fs, nestedCode d = .obj fs
  | 0 => ⟨_, rfl⟩
  | _ + 1 => ⟨_, rfl⟩

/-- Wrapping an object node in a single `item` field does not change its
visit trace. -/
theorem visitTrace_item_wrapper (v : JVal) (fs : JFields) (hv : v = .obj fs)
    (acc : List CodeIdentity) :
    visitTrace (.obj (.cons "item" v .nil)) acc = visitTrace v acc := by
  subst hv
  simp [visitTrace, visitFields, visitCodingPhase, checkSelfVisit, JFields.get]

/-- The traversal visits the code node at every nesting depth. -/
theorem visitTrace_nestedCode :
    ∀ (d : Nat) (acc : List CodeIdentity),
      visitTrace (nestedCode d) acc = acc ++ [("http://sys", "Y")] := by
  intro d
  induction d with
  | zero =>
    intro acc
    simp [nestedCode, codingY, visitTrace, visitFields, visitCodingPhase,
      checkSelfVisit, JFields.get, JVal.truthy, JVal.jstr]
  | succ d ih =>
    intro acc
    obtain ⟨fs, hfs⟩ := nestedCode_isObj d
    rw [nestedCode, visitTrace_item_wrapper (nestedCode d) fs hfs acc]
    exact ih acc

/-- Wrapping an object node in a single `item` field does not change the
scanner result. -/
theorem findAndCheckCodes_item_wrapper (rules : Rules) (v : JVal) (fs : JFields)
    (hv : v = .obj fs) (acc : List Topic) :
    findAndCheckCodes rules (.obj (.cons "item" v .nil)) acc =
      findAndCheckCodes rules v acc := by
  subst hv
  simp [findAndCheckCodes, fccFields, fccCodingPhase, checkSelf, JFields.get]

/-- The scanner matches the code node at every nesting depth. -/
theorem findAndCheckCodes_nestedCode :
    ∀ (d : Nat) (acc : List Topic),
      findAndCheckCodes rules10 (nestedCode d) acc = addMatched acc topic1 := by
  intro d
  induction d with
  | zero =>
    intro acc
    simp [nestedCode, codingY, findAndCheckCodes, fccFields, fccCodingPhase,
      checkSelf, JFields.get, JVal.truthy, JVal.jstr, lookupRule, rules10, topic1]
  | succ d ih =>
    intro acc
    obtain ⟨fs, hfs⟩ := nestedCode_isObj d
    rw [nestedCode, findAndCheckCodes_item_wrapper rules10 (nestedCode d) fs hfs acc]
    exact ih acc

/-- C4 counterexample.  The claim says there is a maximum depth beyond which
the scanner rejects or stops rather than recursing further; but for every
candidate bound `dmax` the scanner still visits (and matches) a code nested
`dmax + 1` object layers deep — the source has no depth counter at all. -/
theorem c4_counterexample_no_max_depth :
    ¬ ∃ dmax : Nat, ∀ d, d > dmax → ("http://sys", "Y") ∉ visitTrace (nestedCode d) [] := by
  rintro ⟨dmax, h⟩
  apply h (dmax + 1) (Nat.lt_succ_self dmax)
  rw [visitTrace_nestedCode]
  simp

/-- C4 amended.  The traversal has NO depth bound: it recurses structurally
to arbitrary depth and is total only because every concrete input tree is
finite; a code nested under any number `d` of object layers is still visited
and matched. -/
theorem c4_scan_reaches_every_depth (d : Nat) :
    ("http://sys", "Y") ∈ visitTrace (nestedCode d) [] ∧
    findAndCheckCodes rules10 (nestedCode d) [] = [topic1] := by
  constructor
  · rw [visitTrace_nestedCode]
    simp
  · rw [findAndCheckCodes_nestedCode]
    rfl

/-- Splitting at the first separator is unambiguous when neither prefix
contains the separator. -/
theorem sep_chars_inj : ∀ (l1 l2 r1 r2 : List Char),
    ('|' : Char) ∉ l1 → ('|' : Char) ∉ l2 →
    l1 ++ '|' :: r1 = l2 ++ '|' :: r2 → l1 = l2 ∧ r1 = r2 := by
  intro l1
  induction l1 with
  | nil =>
    intro l2 r1 r2 h1 h2 heq
    cases l2 with
    | nil => simpa using heq
    | cons b t2 =>
      simp only [List.nil_append, List.cons_append, List.cons.injEq] at heq
      exact absurd (heq.1 ▸ List.mem_cons_self b t2) h2
  | cons a t ih =>
    intro l2 r1 r2 h1 h2 heq
    cases l2 with
    | nil =>
      simp only [List.nil_append, List.cons_append, List.cons.injEq] at heq
      exact absurd (heq.1.symm ▸ List.mem_cons_self a t) h1
    | cons b t2 =>
      simp only [List.cons_append, List.cons.injEq] at heq
      obtain ⟨hab, ht⟩ := heq
      have h1t : ('|' : Char) ∉ t := fun hm => h1 (List.mem_cons_of_mem a hm)
      have h2t : ('|' : Char) ∉ t2 := fun hm => h2 (List.mem_cons_of_mem b hm)
      obtain ⟨he1, he2⟩ := ih t2 r1 r2 h1t h2t ht
      exact ⟨by rw [hab, he1], he2⟩

/-- When neither label's system contains the separator, key equality is
(labelSystem, labelCode) pair equality. -/
theorem labelKey_eq_iff (a b : Label)
    (ha : ('|' : Char) ∉ a.system.data) (hb : ('|' : Char) ∉ b.system.data) :
    labelKey a = labelKey b ↔ a.system = b.system ∧ a.code = b.code := by
  constructor
  · intro h
    unfold labelKey at h
    have hd : (a.system ++ "|" ++ a.code).data = (b.system ++ "|" ++ b.code).data := by rw [h]
    simp only [String.data_append, List.append_assoc, List.nil_append] at hd
    have hd2 : a.system.data ++ '|' :: a.code.data = b.system.data ++ '|' :: b.code.data := by
      simpa using hd
    obtain ⟨h1, h2⟩ := sep_chars_inj _ _ _ _ ha hb hd2
    exact ⟨String.ext h1, String.ext h2⟩
  · rintro ⟨h1, h2⟩
    unfold labelKey
    rw [h1, h2]

/-- Under the no-separator condition, the key-based duplicate test of
`collectDistinctSecurityLabels` agrees with the pair-based test of the
specification. -/
theorem any_key_eq_any_pair (m : List Label) (s : Label)
    (hm : ∀ x ∈ m, ('|' : Char) ∉ x.system.data) (hs : ('|' : Char) ∉ s.system.data) :
    (m.any (fun x => labelKey x == labelKey s)) =
      (m.any (fun x => x.system == s.system && x.code == s.code)) := by
  induction m with
  | nil => rfl
  | cons a rest ih =>
    have ha := hm a (List.mem_cons_self a rest)
    have hrest : ∀ x ∈ rest, ('|' : Char) ∉ x.system.data :=
      fun x hx => hm x (List.mem_cons_of_mem a hx)
    simp only [List.any_cons, ih hrest]
    congr 1
    by_cases hk : labelKey a = labelKey s
    · obtain ⟨h1, h2⟩ := (labelKey_eq_iff a s ha hs).mp hk
      simp [beq_iff_eq, hk, h1, h2]
    · have : ¬ (a.system = s.system ∧ a.code = s.code) :=
        fun hp => hk ((labelKey_eq_iff a s ha hs).mpr hp)
      by_cases h1 : a.system = s.system
      · have h2 : ¬ a.code = s.code := fun h2 => this ⟨h1, h2⟩
        simp [beq_iff_eq, hk, h1, h2]
      · have e1 : (labelKey a == labelKey s) = false := by simp [hk]
        have e2 : (a.system == s.system) = false := by simp [h1]
        simp [e1, e2]

/-- Under the no-separator condition the fold of the code's key-based
dedup step equals the fold of the specification's pair-based step. -/
theorem foldl_addDistinct_eq_addPair :
    ∀ (ls : List Label) (acc : List Label),
      (∀ l ∈ ls, ('|' : Char) ∉ l.system.data) →
      (∀ l ∈ acc, ('|' : Char) ∉ l.system.data) →
      ls.foldl addDistinctLabel acc = ls.foldl addPairLabel acc := by
  intro ls
  induction ls with
  | nil => intro acc _ _; rfl
  | cons s rest ih =>
    intro acc hls hacc
    have hs := hls s (List.mem_cons_self s rest)
    have hrest : ∀ l ∈ rest, ('|' : Char) ∉ l.system.data :=
      fun l hl => hls l (List.mem_cons_of_mem s hl)
    have hstep : addDistinctLabel acc s = addPairLabel acc s := by
      unfold addDistinctLabel addPairLabel
      rw [any_key_eq_any_pair acc s hacc hs]
    have hacc2 : ∀ l ∈ addPairLabel acc s, ('|' : Char) ∉ l.system.data := by
      intro l hl
      unfold addPairLabel at hl
      split at hl
      · exact hacc l hl
      · rcases List.mem_append.mp hl with h | h
        · exact hacc l h
        · have : l = ⟨s.system, s.code, s.display⟩ := List.mem_singleton.mp h
          subst this
          exact hs
    simp only [List.foldl_cons, hstep]
    exact ih (addPairLabel acc s) hrest hacc2

/-- The collection-label pass is the fold of its per-label step over the
concatenation of all records' label lists. -/
theorem collectDistinctTotal_eq_foldl :
    ∀ (rs : List Resource) (m : List Label),
      collectDistinctTotal rs m = (allLabels rs).foldl addDistinctLabel m := by
  intro rs
  induction rs with
  | nil => intro m; rfl
  | cons r rest ih =>
    intro m
    simp only [collectDistinctTotal, allLabels, List.map_cons, List.flatten_cons,
      List.foldl_append]
    exact ih _

/-- Key membership in the deduplicated fold is key membership in the inputs. -/
theorem mem_key_foldl_addDistinct :
    ∀ (ls : List Label) (acc : List Label) (k : String),
      (k ∈ (ls.foldl addDistinctLabel acc).map labelKey) ↔
        (k ∈ acc.map labelKey ∨ k ∈ ls.map labelKey) := by
  intro ls
  induction ls with
  | nil => intro acc k; simp
  | cons s rest ih =>
    intro acc k
    simp only [List.foldl_cons, ih, List.map_cons, List.mem_cons]
    constructor
    · rintro (h | h)
      · unfold addDistinctLabel at h
        split at h
        · exact Or.inl h
        · simp only [List.map_append, List.mem_append] at h
          rcases h with h | h
          · exact Or.inl h
          · simp only [List.map_cons, List.map_nil, List.mem_singleton] at h
            exact Or.inr (Or.inl (by simpa [labelKey] using h))
      · exact Or.inr (Or.inr h)
    · rintro (h | h | h)
      · left
        unfold addDistinctLabel
        split
        · exact h
        · simp only [List.map_append, List.mem_append]
          exact Or.inl h
      · left
        unfold addDistinctLabel
        split
        · rename_i hdup
          rcases List.any_eq_true.mp hdup with ⟨x, hx, hxk⟩
          have : labelKey x = labelKey s := by simpa using hxk
          rw [h]
          rw [← this]
          exact List.mem_map_of_mem labelKey hx
        · simp only [List.map_append, List.mem_append, List.map_cons, List.map_nil]
          right
          simp [labelKey]
          simpa [labelKey] using h
      · exact Or.inr h

/-- The narrowed-mode output's collection-level labels are exactly the
collection pass over the emitted records. -/
theorem analyzeResourceBundle_security (rules : Rules) (ed : Option Int) (now : Int)
    (bundle : Option Bundle) (out : TagOutput)
    (h : analyzeResourceBundle rules ed now bundle = .ok out) :
    out.security = collectDistinctTotal (out.entries.map (fun be => be.resource)) [] := by
  rcases bundle with _ | b
  · simp [analyzeResourceBundle] at h
  · simp only [analyzeResourceBundle] at h
    split at h
    · simp at h
    · split at h
      · simp at h
      · simp at h
      · split at h
        · simp at h
        · rw [collect_entries_ok] at h
          simp only [Except.ok.injEq] at h
          subst h
          rfl

/-- Resources carrying labels whose system contains the `|` separator. -/
def labelPipeA : Label := ⟨"a|b", "c", "dA"⟩

def labelPipeB : Label := ⟨"a", "b|c", "dB"⟩

def resPipeA : Resource := ⟨"Condition", "pa", some ⟨[labelPipeA], []⟩, .null⟩

def resPipeB : Resource := ⟨"Condition", "pb", some ⟨[labelPipeB], []⟩, .null⟩

def bundlePipeAB : Bundle := ⟨"Bundle", some [⟨some resPipeA⟩, ⟨some resPipeB⟩]⟩

def bundlePipeBA : Bundle := ⟨"Bundle", some [⟨some resPipeB⟩, ⟨some resPipeA⟩]⟩

/-- C9 counterexample.  The code deduplicates by the concatenated string
`labelSystem|labelCode`, which conflates the distinct pairs ("a|b", "c") and
("a", "b|c"): the output collection's label set keeps only the first of the
two, is NOT the pair-deduplicated union, and depends on the record order. -/
theorem c9_counterexample_separator_collision :
    (analyzeResourceBundle rules10 none 0 (some bundlePipeAB)).map
        (fun out => out.security.map (fun l => (l.system, l.code))) = .ok [("a|b", "c")] ∧
    (analyzeResourceBundle rules10 none 0 (some bundlePipeBA)).map
        (fun out => out.security.map (fun l => (l.system, l.code))) = .ok [("a", "b|c")] ∧
    (dedupByPair (allLabels [resPipeA, resPipeB])).map (fun l => (l.system, l.code)) =
      [("a|b", "c"), ("a", "b|c")] ∧
    ([("a|b", "c")] : List (String × String)) ≠ [("a|b", "c"), ("a", "b|c")] :=
  ⟨rfl, rfl, rfl, by decide⟩

/-- C9 amended.  The output collection's label set is the key-deduplicated
(`labelSystem|labelCode` string) union of the emitted records' label lists;
when no emitted label's system contains the separator `|`, this equals the
(labelSystem, labelCode) pair-deduplicated union the claim states, and the
set of label keys is independent of the order of the records. -/
theorem c9_collection_label_set :
    (∀ (rules : Rules) (ed : Option Int) (now : Int) (bundle : Option Bundle) (out : TagOutput),
        analyzeResourceBundle rules ed now bundle = .ok out →
        out.security = collectDistinctTotal (out.entries.map (fun be => be.resource)) []) ∧
    (∀ rs : List Resource, (∀ l ∈ allLabels rs, ('|' : Char) ∉ l.system.data) →
        collectDistinctTotal rs [] = dedupByPair (allLabels rs)) ∧
    (∀ rs1 rs2 : List Resource, rs1.Perm rs2 → ∀ k : String,
        (k ∈ (collectDistinctTotal rs1 []).map labelKey ↔
         k ∈ (collectDistinctTotal rs2 []).map labelKey)) := by
  refine ⟨analyzeResourceBundle_security, ?_, ?_⟩
  · intro rs hp
    rw [collectDistinctTotal_eq_foldl, dedupByPair]
    exact foldl_addDistinct_eq_addPair (allLabels rs) [] hp (by simp)
  · intro rs1 rs2 hperm k
    rw [collectDistinctTotal_eq_foldl, collectDistinctTotal_eq_foldl,
        mem_key_foldl_addDistinct, mem_key_foldl_addDistinct]
    simp only [List.map_nil, List.mem_map, allLabels, List.mem_flatten,
      List.not_mem_nil, false_or]
    constructor
    · rintro ⟨l, ⟨ls, ⟨r, hr, hrs⟩, hl⟩, hk⟩
      exact ⟨l, ⟨ls, ⟨r, hperm.mem_iff.mp hr, hrs⟩, hl⟩, hk⟩
    · rintro ⟨l, ⟨ls, ⟨r, hr, hrs⟩, hl⟩, hk⟩
      exact ⟨l, ⟨ls, ⟨r, hperm.mem_iff.mpr hr, hrs⟩, hl⟩, hk⟩

/-- Separator-free labels for the C9 witness. -/
def labelClean1 : Label := ⟨"sysA", "L1", "dc1"⟩

def labelClean2 : Label := ⟨"sysB", "L2", "dc2"⟩

def resClean1 : Resource := ⟨"Condition", "rc1", some ⟨[labelClean1, labelClean2], []⟩, .null⟩

def resClean2 : Resource := ⟨"Condition", "rc2", some ⟨[labelClean2], []⟩, .null⟩

/-- C9 witness: on a concrete separator-free pair of records the collection
label set equals the pair-deduplicated union, and the key set is invariant
under swapping the two records. -/
theorem c9_collection_label_set_witness :
    collectDistinctTotal [resClean1, resClean2] [] =
      dedupByPair (allLabels [resClean1, resClean2]) ∧
    ("sysA|L1" ∈ (collectDistinctTotal [resClean1, resClean2] []).map labelKey ↔
     "sysA|L1" ∈ (collectDistinctTotal [resClean2, resClean1] []).map labelKey) :=
  ⟨c9_collection_label_set.2.1 [resClean1, resClean2] (by decide),
   c9_collection_label_set.2.2 [resClean1, resClean2] [resClean2, resClean1] (by decide) "sysA|L1"⟩
